import Mathlib

/-!
Shallow embedding of the pliantdb data-access core, covering the key codec
(`src/core/src/schema/view/map.rs`), the connection facade types
(`src/crates/bonsaidb-core/src/connection.rs`), and spec-modelled parts of the
transaction engine.  Byte sequences are `List Nat` with every element `< 256`;
fixed-width machine integers are `Nat`/`Int` with explicit bounds.
-/

namespace PliantDb

/-! ### Big-endian byte encoding of fixed-width integers (`to_be_bytes` / `from_be_bytes`) -/

/-- Big-endian byte string (most significant byte first) of `v`, `n` bytes wide.
    Models Rust's `to_be_bytes` for an `n`-byte unsigned integer. -/
def toBEBytes : Nat → Nat → List Nat
  | 0, _ => []
  | n + 1, v => toBEBytes n (v / 256) ++ [v % 256]

/-- Big-endian interpretation of a byte string.  Models `from_be_bytes`. -/
def fromBEBytes : List Nat → Nat
  | [] => 0
  | b :: rest => b * 256 ^ rest.length + fromBEBytes rest

/-- Lexicographic strict order on byte strings, as Rust's `Ord` for `[u8]`
    (a strict prefix compares less). -/
def lexLt : List Nat → List Nat → Bool
  | _, [] => false
  | [], _ :: _ => true
  | a :: as, b :: bs => decide (a < b) || (a == b && lexLt as bs)

/-! ### Key codec for fixed-width integers (`impl_key_for_primitive`)

`uN` (unsigned, `n` bytes wide) and `iN` (signed, two's complement, `n` bytes
wide) keys.  `as_big_endian_bytes` is `to_be_bytes`; `from_big_endian_bytes`
is `try_into` (length check) followed by `from_be_bytes`. -/

/-- `as_big_endian_bytes` for the unsigned `n`-byte integer key. -/
def uintAsBigEndianBytes (n : Nat) (v : Nat) : List Nat :=
  toBEBytes n v

/-- `from_big_endian_bytes` for the unsigned `n`-byte integer key:
    `bytes.try_into()` fails unless the slice is exactly `n` bytes. -/
def uintFromBigEndianBytes (n : Nat) (bytes : List Nat) : Except String Nat :=
  if bytes.length = n then .ok (fromBEBytes bytes) else .error "TryFromSliceError"

/-- `as_big_endian_bytes` for the signed `n`-byte integer key: the raw
    two's-complement value (`v mod 2^(8n)`) in big-endian byte order.  The
    source emits `self.to_be_bytes()` directly — no sign-bit flip. -/
def intAsBigEndianBytes (n : Nat) (v : Int) : List Nat :=
  toBEBytes n (v % (2 : Int) ^ (8 * n)).toNat

/-- `from_big_endian_bytes` for the signed `n`-byte integer key. -/
def intFromBigEndianBytes (n : Nat) (bytes : List Nat) : Except String Int :=
  if bytes.length = n then
    let u := fromBEBytes bytes
    .ok (if u < 2 ^ (8 * n - 1) then (u : Int) else (u : Int) - (2 : Int) ^ (8 * n))
  else .error "TryFromSliceError"

/-! ### Byte-string, unit and UUID keys -/

/-- `impl Key for Vec<u8>`: encoding is the bytes themselves. -/
def vecAsBigEndianBytes (v : List Nat) : List Nat := v

/-- `impl Key for Vec<u8>`: decoding copies the bytes. -/
def vecFromBigEndianBytes (bytes : List Nat) : Except String (List Nat) := .ok bytes

/-- `impl Key for Cow<[u8]>`: encoding clones the bytes. -/
def cowAsBigEndianBytes (v : List Nat) : List Nat := v

/-- `impl Key for Cow<[u8]>`: decoding copies the bytes. -/
def cowFromBigEndianBytes (bytes : List Nat) : Except String (List Nat) := .ok bytes

/-- `impl Key for ()`: encoding is empty (`Cow::default()`). -/
def unitAsBigEndianBytes (_v : Unit) : Except String (List Nat) := .ok []

/-- `impl Key for ()`: decoding ignores the bytes. -/
def unitFromBigEndianBytes (_bytes : List Nat) : Except String Unit := .ok ()

/-- `impl Key for Uuid`: encoding is the 16 raw bytes (`self.as_bytes()`). -/
def uuidAsBigEndianBytes (u : List Nat) : List Nat := u

/-- `impl Key for Uuid`: `bytes.try_into()` requires exactly 16 bytes, then
    `Uuid::from_bytes`. -/
def uuidFromBigEndianBytes (bytes : List Nat) : Except String (List Nat) :=
  if bytes.length = 16 then .ok bytes else .error "TryFromSliceError"

/-! ### UTF-8 and the `String` key

A Rust `String` is modelled as its list of Unicode scalar values.
`as_big_endian_bytes` is `self.as_bytes()`, i.e. the UTF-8 encoding;
`from_big_endian_bytes` is `String::from_utf8`, which validates. -/

/-- A Unicode scalar value: below `0x110000` and not a surrogate. -/
def isValidScalar (c : Nat) : Prop :=
  c < 1114112 ∧ ¬(55296 ≤ c ∧ c ≤ 57343)

instance (c : Nat) : Decidable (isValidScalar c) := by
  unfold isValidScalar
  infer_instance

/-- UTF-8 encoding of one scalar value (1–4 bytes). -/
def utf8EncodeChar (c : Nat) : List Nat :=
  if c < 128 then [c]
  else if c < 2048 then [192 + c / 64, 128 + c % 64]
  else if c < 65536 then [224 + c / 4096, 128 + c / 64 % 64, 128 + c % 64]
  else [240 + c / 262144, 128 + c / 4096 % 64, 128 + c / 64 % 64, 128 + c % 64]

/-- UTF-8 encoding of a sequence of scalar values (`str::as_bytes`). -/
def utf8Encode : List Nat → List Nat
  | [] => []
  | c :: rest => utf8EncodeChar c ++ utf8Encode rest

/-- A UTF-8 continuation byte: `0b10xxxxxx`. -/
def isCont (b : Nat) : Bool :=
  decide (128 ≤ b) && decide (b < 192)

/-- Strict UTF-8 decoding of one scalar value, rejecting overlong forms,
    surrogates and out-of-range values, as Rust's `run_utf8_validation`. -/
def utf8DecodeOne : List Nat → Option (Nat × List Nat)
  | [] => none
  | b :: rest =>
    if b < 128 then some (b, rest)
    else if b < 194 then none
    else if b < 224 then
      match rest with
      | b2 :: rest2 =>
        if isCont b2 then some ((b - 192) * 64 + (b2 - 128), rest2) else none
      | [] => none
    else if b < 240 then
      match rest with
      | b2 :: b3 :: rest3 =>
        let c := (b - 224) * 4096 + (b2 - 128) * 64 + (b3 - 128)
        if isCont b2 && isCont b3 && decide (2048 ≤ c) &&
            !(decide (55296 ≤ c) && decide (c ≤ 57343)) then
          some (c, rest3)
        else none
      | _ => none
    else if b < 245 then
      match rest with
      | b2 :: b3 :: b4 :: rest4 =>
        let c := (b - 240) * 262144 + (b2 - 128) * 4096 + (b3 - 128) * 64 + (b4 - 128)
        if isCont b2 && isCont b3 && isCont b4 && decide (65536 ≤ c) &&
            decide (c < 1114112) then
          some (c, rest4)
        else none
      | _ => none
    else none

theorem utf8DecodeOne_length {l : List Nat} {c : Nat} {rest : List Nat}
    (h : utf8DecodeOne l = some (c, rest)) : rest.length < l.length := by
  match l with
  | [] => simp [utf8DecodeOne] at h
  | b :: t =>
    simp only [utf8DecodeOne] at h
    repeat' split at h
    all_goals simp at h
    all_goals obtain ⟨h1, h2⟩ := h
    all_goals subst h2
    all_goals simp
    all_goals omega

/-- Strict UTF-8 decoding of a whole byte string (`String::from_utf8`
    validation): `some` of the scalar values on success, `none` on any
    invalid byte sequence. -/
def utf8Decode (l : List Nat) : Option (List Nat) :=
  match l with
  | [] => some []
  | b :: t =>
    match h : utf8DecodeOne (b :: t) with
    | none => none
    | some (c, rest) =>
      match utf8Decode rest with
      | none => none
      | some cs => some (c :: cs)
termination_by l.length
decreasing_by exact utf8DecodeOne_length h

/-- `impl Key for String`: `as_big_endian_bytes` is `self.as_bytes()`. -/
def stringAsBigEndianBytes (s : List Nat) : List Nat :=
  utf8Encode s

/-- `impl Key for String`: `from_big_endian_bytes` is
    `String::from_utf8(bytes.to_vec())?`, an error on invalid UTF-8. -/
def stringFromBigEndianBytes (bytes : List Nat) : Except String (List Nat) :=
  match utf8Decode bytes with
  | some s => .ok s
  | none => .error "FromUtf8Error"

/-! ### The `Option<T>` key

`as_big_endian_bytes` for `Some(x)` runs the inner encoder, propagates its
error, and then `assert!(!contents.is_empty())` — an assertion failure is a
panic, not an error, so the result type has an explicit third outcome. -/

/-- Outcome of running a fallible piece of code that may also panic. -/
inductive Outcome (ε : Type) (α : Type) where
  | panicked : Outcome ε α
  | error : ε → Outcome ε α
  | ok : α → Outcome ε α
deriving DecidableEq

/-- True exactly when the outcome is an error returned to the caller. -/
def Outcome.isError : Outcome ε α → Bool
  | .error _ => true
  | _ => false

/-- `impl Key for Option<T>`: `as_big_endian_bytes`.  `None` encodes to the
    empty byte string; `Some(x)` encodes to `x.as_big_endian_bytes()?` after
    `assert!(!contents.is_empty())`. -/
def optionAsBigEndianBytes (enc : α → Except ε (List Nat)) :
    Option α → Outcome ε (List Nat)
  | some contents =>
    match enc contents with
    | .error e => .error e
    | .ok bs => if bs.isEmpty then .panicked else .ok bs
  | none => .ok []

/-- `impl Key for Option<T>`: `from_big_endian_bytes`.  Empty bytes decode to
    `None`; anything else decodes through the inner decoder to `Some`. -/
def optionFromBigEndianBytes (dec : List Nat → Except ε α) (bytes : List Nat) :
    Except ε (Option α) :=
  if bytes.isEmpty then .ok none
  else (dec bytes).map some

/-! ### `Range` and `Bound` (connection.rs)

The field `end` of `Range` is a reserved word in Lean and is called `stop`
here. -/

/-- A serializable range bound (`connection::Bound`). -/
inductive KeyBound (α : Type) where
  | unbounded : KeyBound α
  | included : α → KeyBound α
  | excluded : α → KeyBound α
deriving DecidableEq

/-- A serializable range (`connection::Range`); `stop` is the source's `end`. -/
structure KeyRange (α : Type) where
  start : KeyBound α
  stop : KeyBound α
deriving DecidableEq

/-- `Bound::as_big_endian_bytes`: serializes the contained value, if any. -/
def boundAsBigEndianBytes (enc : α → Except ε (List Nat)) :
    KeyBound α → Except ε (KeyBound (List Nat))
  | .unbounded => .ok .unbounded
  | .included value => (enc value).map .included
  | .excluded value => (enc value).map .excluded

/-- `Bound::deserialize`: deserializes the contained value, if any. -/
def boundDeserialize (dec : List Nat → Except ε α) :
    KeyBound (List Nat) → Except ε (KeyBound α)
  | .unbounded => .ok .unbounded
  | .included value => (dec value).map .included
  | .excluded value => (dec value).map .excluded

/-- `Range::as_big_endian_bytes`: serializes `start` from `self.start` and
    `end` from `self.end`. -/
def rangeAsBigEndianBytes (enc : α → Except ε (List Nat)) (r : KeyRange α) :
    Except ε (KeyRange (List Nat)) := do
  let s ← boundAsBigEndianBytes enc r.start
  let e ← boundAsBigEndianBytes enc r.stop
  pure ⟨s, e⟩

/-- `Range::deserialize`, exactly as written in the source: both the `start`
    and the `end` field are deserialized from `self.start`. -/
def rangeDeserialize (dec : List Nat → Except ε α) (r : KeyRange (List Nat)) :
    Except ε (KeyRange α) := do
  let s ← boundDeserialize dec r.start
  let e ← boundDeserialize dec r.start
  pure ⟨s, e⟩

/-! ### View query parameters (connection.rs `View`)

The struct's `connection` reference carries no queryable state and is not
modelled.  The source's enum `Sort` is a reserved word in Lean and is called
`SortOrder` here. -/

/-- A sort order (`connection::Sort`). -/
inductive SortOrder where
  | ascending : SortOrder
  | descending : SortOrder
deriving DecidableEq

/-- Changes how the view's outdated data will be treated. -/
inductive AccessPolicy where
  | updateBefore : AccessPolicy
  | updateAfter : AccessPolicy
  | noUpdate : AccessPolicy
deriving DecidableEq

/-- Filters a `View` by key (`connection::QueryKey`). -/
inductive QueryKey (κ : Type) where
  | matches : κ → QueryKey κ
  | range : KeyRange κ → QueryKey κ
  | multiple : List κ → QueryKey κ
deriving DecidableEq

/-- Parameters to query a `schema::View` (the data fields of
    `connection::View`). -/
structure ViewParams (κ : Type) where
  key : Option (QueryKey κ)
  accessPolicy : AccessPolicy
  sort : SortOrder
  limit : Option Nat
deriving DecidableEq

namespace ViewParams

/-- `View::new`: the initial parameters of `Connection::view`. -/
def new : ViewParams κ :=
  { key := none
    accessPolicy := .updateBefore
    sort := .ascending
    limit := none }

/-- `View::with_key`. -/
def with_key (v : ViewParams κ) (key : κ) : ViewParams κ :=
  { v with key := some (.matches key) }

/-- `View::with_keys`. -/
def with_keys (v : ViewParams κ) (keys : List κ) : ViewParams κ :=
  { v with key := some (.multiple keys) }

/-- `View::with_key_range`. -/
def with_key_range (v : ViewParams κ) (range : KeyRange κ) : ViewParams κ :=
  { v with key := some (.range range) }

/-- `View::with_access_policy`. -/
def with_access_policy (v : ViewParams κ) (policy : AccessPolicy) : ViewParams κ :=
  { v with accessPolicy := policy }

/-- `View::ascending`. -/
def ascending (v : ViewParams κ) : ViewParams κ :=
  { v with sort := .ascending }

/-- `View::descending`. -/
def descending (v : ViewParams κ) : ViewParams κ :=
  { v with sort := .descending }

/-- `View::limit`; named `with_limit` because the struct already has the
    field `limit`. -/
def with_limit (v : ViewParams κ) (maximumResults : Nat) : ViewParams κ :=
  { v with limit := some maximumResults }

end ViewParams

/-! ### Transaction engine

`apply_transaction` is declared on the `Connection` trait in connection.rs;
its implementations (the local storage engine, the network client) are not
part of the sources, so the engine is modelled from the spec (§4.E): a single
collection of documents with per-document revision sequence numbers,
operations applied in order, and an atomic commit that assigns one
transaction id and appends one `Executed` record. -/

/-- A stored document: revision sequence number and contents. -/
structure StoredDoc where
  seq : Nat
  contents : List Nat
deriving DecidableEq

/-- The documents of a collection, an association list from id. -/
abbrev Docs := List (Nat × StoredDoc)

/-- A transaction operation (spec §3: `Insert`, `Update`, `Delete`).  Update
    and delete carry the header's revision sequence number for the
    optimistic-concurrency check. -/
inductive Operation where
  | insert : Option Nat → List Nat → Operation
  | update : Nat → Nat → List Nat → Operation
  | delete : Nat → Nat → Operation
deriving DecidableEq

/-- The result of a successful operation (`transaction::OperationResult`):
    an updated document header or a deletion notice. -/
inductive OperationResult where
  | documentUpdated : Nat → Nat → OperationResult
  | documentDeleted : Nat → OperationResult
deriving DecidableEq

/-- Errors an operation can produce (spec §4.E). -/
inductive TxError where
  | documentConflict : Nat → TxError
  | documentNotFound : Nat → TxError
deriving DecidableEq

/-- Modelled from the spec: a fresh id for `Insert(coll, None, contents)`
    — "id chosen by engine". -/
def freshId (docs : Docs) : Nat :=
  (docs.map Prod.fst).foldr max 0 + 1

/-- Modelled from the spec (§4.E per-operation semantics): apply one
    operation to the collection, or fail. -/
def applyOperation (docs : Docs) :
    Operation → Except TxError (Docs × OperationResult)
  | .insert (some id) contents =>
    match docs.lookup id with
    | some _ => .error (.documentConflict id)
    | none => .ok ((id, ⟨1, contents⟩) :: docs, .documentUpdated id 1)
  | .insert none contents =>
    let id := freshId docs
    .ok ((id, ⟨1, contents⟩) :: docs, .documentUpdated id 1)
  | .update id seq contents =>
    match docs.lookup id with
    | none => .error (.documentNotFound id)
    | some d =>
      if d.seq = seq then
        .ok ((id, ⟨seq + 1, contents⟩) :: docs.eraseP (fun p => p.1 == id),
          .documentUpdated id (seq + 1))
      else .error (.documentConflict id)
  | .delete id seq =>
    match docs.lookup id with
    | none => .error (.documentNotFound id)
    | some d =>
      if d.seq = seq then
        .ok (docs.eraseP (fun p => p.1 == id), .documentDeleted id)
      else .error (.documentConflict id)

/-- Modelled from the spec: operations of a transaction are applied in their
    listed order; the first failure aborts. -/
def applyOperations (docs : Docs) :
    List Operation → Except TxError (Docs × List OperationResult)
  | [] => .ok (docs, [])
  | op :: rest => do
    let (docs1, r) ← applyOperation docs op
    let (docs2, rs) ← applyOperations docs1 rest
    pure (docs2, r :: rs)

/-- The observable database state: documents, the last committed transaction
    id, and the append-only `Executed` log. -/
structure DbState where
  docs : Docs
  lastTxId : Option Nat
  executed : List (Nat × List OperationResult)
deriving DecidableEq

/-- The transaction id the engine assigns at the next commit: next after the
    last committed (the sequence is gap-free from 1). -/
def DbState.nextTxId (st : DbState) : Nat :=
  match st.lastTxId with
  | none => 1
  | some n => n + 1

/-- Modelled from the spec (§4.E atomicity): `apply_transaction`.  All
    operations apply under one commit point; on any failure the engine
    produces no visible mutation — the state handed back is the input state.
    On commit the engine assigns one transaction id and appends one
    `Executed` record. -/
def applyTransaction (st : DbState) (tx : List Operation) :
    DbState × Except TxError (List OperationResult) :=
  match applyOperations st.docs tx with
  | .error e => (st, .error e)
  | .ok (docs1, results) =>
    ({ docs := docs1
       lastTxId := some st.nextTxId
       executed := st.executed ++ [(st.nextTxId, results)] },
      .ok results)

/-! ### The connection facade's single-operation default methods

`Connection::insert`, `update` and `delete` assemble a one-operation
transaction, submit it through `apply_transaction`, and inspect
`results[0]`.  Indexing an empty `Vec` and the `unreachable!` arms are
panics, modelled by the explicit `Outcome.panicked`.  The backend is an
arbitrary function from transactions to results. -/

/-- `Connection::insert`: submits `Transaction::insert(collection, id,
    contents)` and returns the header of the `DocumentUpdated` in
    `results[0]`. -/
def connectionInsert (applyTx : List Operation → Except TxError (List OperationResult))
    (id : Option Nat) (contents : List Nat) : Outcome TxError (Nat × Nat) :=
  match applyTx [.insert id contents] with
  | .error e => .error e
  | .ok results =>
    match results with
    | [] => .panicked
    | r :: _ =>
      match r with
      | .documentUpdated did dseq => .ok (did, dseq)
      | _ => .panicked

/-- `Connection::update`: submits `Transaction::update(collection, header,
    contents)`; on `DocumentUpdated` the caller's document header is
    overwritten with the returned header, which is what this function
    returns. -/
def connectionUpdate (applyTx : List Operation → Except TxError (List OperationResult))
    (header : Nat × Nat) (contents : List Nat) : Outcome TxError (Nat × Nat) :=
  match applyTx [.update header.1 header.2 contents] with
  | .error e => .error e
  | .ok results =>
    match results.head? with
    | some (.documentUpdated did dseq) => .ok (did, dseq)
    | _ => .panicked

/-- `Connection::delete`: submits `Transaction::delete(collection, header)`
    and returns unit on a `DocumentDeleted` in `results[0]`. -/
def connectionDelete (applyTx : List Operation → Except TxError (List OperationResult))
    (header : Nat × Nat) : Outcome TxError Unit :=
  match applyTx [.delete header.1 header.2] with
  | .error e => .error e
  | .ok results =>
    match results with
    | [] => .panicked
    | r :: _ =>
      match r with
      | .documentDeleted _ => .ok ()
      | _ => .panicked

/-- The result kind that matches a submitted operation: inserts and updates
    yield `DocumentUpdated`, deletes yield `DocumentDeleted`. -/
def resultMatches : Operation → OperationResult → Prop
  | .insert _ _, .documentUpdated _ _ => True
  | .update _ _ _, .documentUpdated _ _ => True
  | .delete _ _, .documentDeleted _ => True
  | _, _ => False

/-- Modelled from the spec (§4.G): `list_executed_transactions(starting_id,
    result_limit)` — records from `starting_id` on, "a maximum of 1000
    entries will be returned, but that limit can be overridden by setting
    `result_limit`.  A hard limit of 100,000 results will be returned." -/
def listExecutedTransactions (log : List (Nat × List OperationResult))
    (startingId : Option Nat) (resultLimit : Option Nat) :
    List (Nat × List OperationResult) :=
  let cap := min (resultLimit.getD 1000) 100000
  (log.filter (fun r => startingId.getD 0 ≤ r.1)).take cap

/-! ### Helper lemmas about big-endian bytes and lexicographic order -/

theorem toBEBytes_length (n v : Nat) : (toBEBytes n v).length = n := by
  induction n generalizing v with
  | zero => simp [toBEBytes]
  | succ k ih => simp [toBEBytes, ih]

theorem toBEBytes_lt (n v : Nat) : ∀ b ∈ toBEBytes n v, b < 256 := by
  induction n generalizing v with
  | zero => simp [toBEBytes]
  | succ k ih =>
    intro b hb
    rcases List.mem_append.mp hb with h | h
    · exact ih (v / 256) b h
    · simp at h
      omega

theorem fromBEBytes_append (xs : List Nat) (x : Nat) :
    fromBEBytes (xs ++ [x]) = 256 * fromBEBytes xs + x := by
  induction xs with
  | nil => simp [fromBEBytes]
  | cons b t ih =>
    show fromBEBytes (b :: (t ++ [x])) = _
    simp only [fromBEBytes, ih]
    rw [List.length_append]
    simp only [List.length_cons, List.length_nil, Nat.zero_add, Nat.pow_succ]
    ring

theorem fromBEBytes_toBEBytes {n v : Nat} (h : v < 256 ^ n) :
    fromBEBytes (toBEBytes n v) = v := by
  induction n generalizing v with
  | zero =>
    simp [toBEBytes, fromBEBytes]
    omega
  | succ k ih =>
    have hdiv : v / 256 < 256 ^ k := by
      rw [Nat.div_lt_iff_lt_mul (by omega)]
      rw [Nat.pow_succ] at h
      omega
    simp only [toBEBytes, fromBEBytes_append, ih hdiv]
    omega

theorem fromBEBytes_lt {l : List Nat} (h : ∀ b ∈ l, b < 256) :
    fromBEBytes l < 256 ^ l.length := by
  induction l with
  | nil => simp [fromBEBytes]
  | cons b t ih =>
    have hb : b < 256 := h b (by simp)
    have ht := ih (fun x hx => h x (by simp [hx]))
    simp only [fromBEBytes, List.length_cons]
    calc b * 256 ^ t.length + fromBEBytes t
        < b * 256 ^ t.length + 256 ^ t.length := by omega
      _ = (b + 1) * 256 ^ t.length := by ring
      _ ≤ 256 * 256 ^ t.length := Nat.mul_le_mul_right _ (by omega)
      _ = 256 ^ (t.length + 1) := by rw [Nat.pow_succ]; ring

theorem lexLt_iff_fromBEBytes {xs ys : List Nat} (hlen : xs.length = ys.length)
    (hx : ∀ b ∈ xs, b < 256) (hy : ∀ b ∈ ys, b < 256) :
    lexLt xs ys = true ↔ fromBEBytes xs < fromBEBytes ys := by
  induction xs generalizing ys with
  | nil =>
    match ys with
    | [] => simp [lexLt, fromBEBytes]
    | y :: t => simp at hlen
  | cons x xt ih =>
    match ys with
    | [] => simp at hlen
    | y :: yt =>
      have hL : xt.length = yt.length := by simpa using hlen
      have hfx := fromBEBytes_lt (fun b hb => hx b (List.mem_cons_of_mem _ hb))
      have hfy := fromBEBytes_lt (fun b hb => hy b (List.mem_cons_of_mem _ hb))
      simp only [lexLt, fromBEBytes, hL, Bool.or_eq_true, decide_eq_true_eq,
        Bool.and_eq_true, beq_iff_eq]
      constructor
      · rintro (hxy | ⟨hxy, hrec⟩)
        · have : (x + 1) * 256 ^ yt.length ≤ y * 256 ^ yt.length :=
            Nat.mul_le_mul_right _ (by omega)
          have hx1 : x * 256 ^ yt.length + fromBEBytes xt <
              (x + 1) * 256 ^ yt.length := by
            rw [hL] at hfx
            calc x * 256 ^ yt.length + fromBEBytes xt
                < x * 256 ^ yt.length + 256 ^ yt.length := by omega
              _ = (x + 1) * 256 ^ yt.length := by ring
          omega
        · subst hxy
          have := (ih hL (fun b hb => hx b (List.mem_cons_of_mem _ hb))
            (fun b hb => hy b (List.mem_cons_of_mem _ hb))).mp hrec
          omega
      · intro hsum
        rcases Nat.lt_trichotomy x y with hxy | hxy | hxy
        · exact Or.inl hxy
        · subst hxy
          refine Or.inr ⟨rfl, ?_⟩
          exact (ih hL (fun b hb => hx b (List.mem_cons_of_mem _ hb))
            (fun b hb => hy b (List.mem_cons_of_mem _ hb))).mpr (by omega)
        · exfalso
          have : (y + 1) * 256 ^ yt.length ≤ x * 256 ^ yt.length :=
            Nat.mul_le_mul_right _ (by omega)
          have hy1 : y * 256 ^ yt.length + fromBEBytes yt <
              (y + 1) * 256 ^ yt.length := by
            calc y * 256 ^ yt.length + fromBEBytes yt
                < y * 256 ^ yt.length + 256 ^ yt.length := by omega
              _ = (y + 1) * 256 ^ yt.length := by ring
          omega

/-! ### Signed integer keys: two's-complement helper lemmas -/

theorem pow_two_mul_eight (n : Nat) : (2 : Nat) ^ (8 * n) = 256 ^ n := by
  rw [pow_mul]
  norm_num

theorem int_emod_two_pow (n : Nat) (x : Int) :
    0 ≤ x % (2 : Int) ^ (8 * n) ∧ x % (2 : Int) ^ (8 * n) < (2 : Int) ^ (8 * n) := by
  constructor
  · exact Int.emod_nonneg x (by positivity)
  · exact Int.emod_lt_of_pos x (by positivity)

theorem fromBE_intAs (n : Nat) (x : Int) :
    fromBEBytes (intAsBigEndianBytes n x) = (x % (2 : Int) ^ (8 * n)).toNat := by
  apply fromBEBytes_toBEBytes
  obtain ⟨h1, h2⟩ := int_emod_two_pow n x
  have : ((256 ^ n : Nat) : Int) = (2 : Int) ^ (8 * n) := by
    rw [← pow_two_mul_eight n]
    push_cast
    rfl
  omega

theorem int_emod_nonneg_eq {n : Nat} {x : Int} (h0 : 0 ≤ x)
    (hhi : x < (2 : Int) ^ (8 * n)) : x % (2 : Int) ^ (8 * n) = x :=
  Int.emod_eq_of_lt h0 hhi

theorem int_emod_neg_eq {n : Nat} {x : Int} (h0 : x < 0)
    (hlo : -((2 : Int) ^ (8 * n)) ≤ x) :
    x % (2 : Int) ^ (8 * n) = x + (2 : Int) ^ (8 * n) := by
  have h1 : (x + 2 ^ (8 * n) * 1) % 2 ^ (8 * n) = x % 2 ^ (8 * n) :=
    Int.add_mul_emod_self_left x ((2 : Int) ^ (8 * n)) 1
  rw [mul_one] at h1
  have h2 : (x + 2 ^ (8 * n)) % 2 ^ (8 * n) = x + 2 ^ (8 * n) :=
    Int.emod_eq_of_lt (by omega) (by omega)
  omega

theorem int_roundtrip {n : Nat} {x : Int} (hn : 1 ≤ n)
    (hlo : -((2 : Int) ^ (8 * n - 1)) ≤ x) (hhi : x < (2 : Int) ^ (8 * n - 1)) :
    intFromBigEndianBytes n (intAsBigEndianBytes n x) = .ok x := by
  have hsplit : 8 * n = (8 * n - 1) + 1 := by omega
  have hM : (2 : Int) ^ (8 * n) = 2 * 2 ^ (8 * n - 1) := by
    conv_lhs => rw [hsplit]
    rw [pow_succ]
    ring
  have hMn : (2 : Nat) ^ (8 * n) = 2 * 2 ^ (8 * n - 1) := by
    conv_lhs => rw [hsplit]
    rw [pow_succ]
    ring
  have hcast : (((2 : Nat) ^ (8 * n - 1) : Nat) : Int) = (2 : Int) ^ (8 * n - 1) := by
    push_cast
    rfl
  have hPpos : (0 : Int) < 2 ^ (8 * n - 1) := by positivity
  have hlen : (intAsBigEndianBytes n x).length = n := by
    rw [intAsBigEndianBytes, toBEBytes_length]
  simp only [intFromBigEndianBytes, hlen, if_true]
  rw [fromBE_intAs]
  by_cases h0 : 0 ≤ x
  · rw [int_emod_nonneg_eq h0 (by omega)]
    rw [if_pos (by omega)]
    simp only [Except.ok.injEq]
    omega
  · rw [int_emod_neg_eq (by omega) (by omega)]
    rw [if_neg (by omega)]
    simp only [Except.ok.injEq]
    omega

/-! ### Encoded order of integer keys -/

theorem lexLt_uint_iff {n a b : Nat} (ha : a < 256 ^ n) (hb : b < 256 ^ n) :
    lexLt (uintAsBigEndianBytes n a) (uintAsBigEndianBytes n b) = true ↔ a < b := by
  unfold uintAsBigEndianBytes
  rw [lexLt_iff_fromBEBytes (by rw [toBEBytes_length, toBEBytes_length])
    (toBEBytes_lt n a) (toBEBytes_lt n b)]
  rw [fromBEBytes_toBEBytes ha, fromBEBytes_toBEBytes hb]

theorem lexLt_int_iff (n : Nat) (x y : Int) :
    lexLt (intAsBigEndianBytes n x) (intAsBigEndianBytes n y) = true ↔
      (x % (2 : Int) ^ (8 * n)).toNat < (y % (2 : Int) ^ (8 * n)).toNat := by
  have hx := fromBE_intAs n x
  have hy := fromBE_intAs n y
  unfold intAsBigEndianBytes at hx hy ⊢
  rw [lexLt_iff_fromBEBytes (by rw [toBEBytes_length, toBEBytes_length])
    (toBEBytes_lt n _) (toBEBytes_lt n _), hx, hy]

theorem int_emod_toNat_cases {n : Nat} {x : Int} (hn : 1 ≤ n)
    (hlo : -((2 : Int) ^ (8 * n - 1)) ≤ x) (hhi : x < (2 : Int) ^ (8 * n - 1)) :
    (0 ≤ x → ((x % (2 : Int) ^ (8 * n)).toNat : Int) = x ∧
      (x % (2 : Int) ^ (8 * n)).toNat < 2 ^ (8 * n - 1)) ∧
    (x < 0 → ((x % (2 : Int) ^ (8 * n)).toNat : Int) = x + (2 : Int) ^ (8 * n) ∧
      2 ^ (8 * n - 1) ≤ (x % (2 : Int) ^ (8 * n)).toNat) := by
  have hsplit : 8 * n = (8 * n - 1) + 1 := by omega
  have hM : (2 : Int) ^ (8 * n) = 2 * 2 ^ (8 * n - 1) := by
    conv_lhs => rw [hsplit]
    rw [pow_succ]
    ring
  have hcast : (((2 : Nat) ^ (8 * n - 1) : Nat) : Int) = (2 : Int) ^ (8 * n - 1) := by
    push_cast
    rfl
  have hPpos : (0 : Int) < 2 ^ (8 * n - 1) := by positivity
  constructor
  · intro h0
    have he : x % (2 : Int) ^ (8 * n) = x := Int.emod_eq_of_lt h0 (by omega)
    rw [he]
    omega
  · intro h0
    have h1 : (x + 2 ^ (8 * n) * 1) % 2 ^ (8 * n) = x % 2 ^ (8 * n) :=
      Int.add_mul_emod_self_left x ((2 : Int) ^ (8 * n)) 1
    rw [mul_one] at h1
    have h2 : (x + 2 ^ (8 * n)) % 2 ^ (8 * n) = x + 2 ^ (8 * n) :=
      Int.emod_eq_of_lt (by omega) (by omega)
    omega

/-! ### UTF-8 correctness -/

theorem utf8Decode_cons (b : Nat) (t : List Nat) :
    utf8Decode (b :: t) =
      match utf8DecodeOne (b :: t) with
      | none => none
      | some (c, rest) =>
        match utf8Decode rest with
        | none => none
        | some cs => some (c :: cs) := by
  rw [utf8Decode]
  rcases hd : utf8DecodeOne (b :: t) with _ | ⟨c, rest⟩ <;> simp [hd]

theorem utf8DecodeOne_encodeChar {c : Nat} (h : isValidScalar c) (rest : List Nat) :
    utf8DecodeOne (utf8EncodeChar c ++ rest) = some (c, rest) := by
  obtain ⟨hlt, hsur⟩ := h
  by_cases h1 : c < 128
  · simp [utf8EncodeChar, utf8DecodeOne, h1]
  · by_cases h2 : c < 2048
    · have e : utf8EncodeChar c = [192 + c / 64, 128 + c % 64] := by
        simp [utf8EncodeChar, h1, h2]
      rw [e]
      simp only [List.cons_append, List.nil_append, utf8DecodeOne]
      rw [if_neg (by omega), if_neg (by omega), if_pos (by omega),
        if_pos (show isCont (128 + c % 64) = true by simp [isCont]; omega)]
      simp only [Option.some.injEq, Prod.mk.injEq]
      exact ⟨by omega, trivial⟩
    · by_cases h3 : c < 65536
      · have e : utf8EncodeChar c =
            [224 + c / 4096, 128 + c / 64 % 64, 128 + c % 64] := by
          simp [utf8EncodeChar, h1, h2, h3]
        rw [e]
        simp only [List.cons_append, List.nil_append, utf8DecodeOne]
        rw [if_neg (by omega), if_neg (by omega), if_neg (by omega), if_pos (by omega),
          if_pos (show _ = true by simp [isCont]; refine ⟨⟨⟨?_, ?_⟩, ?_⟩, ?_⟩ <;> omega)]
        simp only [Option.some.injEq, Prod.mk.injEq]
        exact ⟨by omega, trivial⟩
      · have e : utf8EncodeChar c =
            [240 + c / 262144, 128 + c / 4096 % 64, 128 + c / 64 % 64, 128 + c % 64] := by
          simp [utf8EncodeChar, h1, h2, h3]
        rw [e]
        simp only [List.cons_append, List.nil_append, utf8DecodeOne]
        rw [if_neg (by omega), if_neg (by omega), if_neg (by omega), if_neg (by omega),
          if_pos (by omega),
          if_pos (show _ = true by simp [isCont]; refine ⟨⟨⟨?_, ?_⟩, ?_⟩, ?_⟩ <;> omega)]
        simp only [Option.some.injEq, Prod.mk.injEq]
        exact ⟨by omega, trivial⟩

theorem utf8EncodeChar_ne_nil (c : Nat) : utf8EncodeChar c ≠ [] := by
  unfold utf8EncodeChar
  repeat' split
  all_goals simp

theorem utf8Decode_ne_nil {l : List Nat} (hne : l ≠ []) :
    utf8Decode l =
      match utf8DecodeOne l with
      | none => none
      | some (c, rest) =>
        match utf8Decode rest with
        | none => none
        | some cs => some (c :: cs) := by
  match l with
  | [] => exact absurd rfl hne
  | b :: t => exact utf8Decode_cons b t

theorem isValidScalar_of (c : Nat) (h1 : c < 1114112)
    (h2 : 55296 ≤ c → 57343 < c) : isValidScalar c :=
  ⟨h1, by omega⟩

theorem utf8DecodeOne_sound {l rest : List Nat} {c : Nat}
    (h : utf8DecodeOne l = some (c, rest)) :
    isValidScalar c ∧ l = utf8EncodeChar c ++ rest := by
  match l with
  | [] => simp [utf8DecodeOne] at h
  | b :: t =>
    simp only [utf8DecodeOne] at h
    repeat' split at h
    all_goals simp at h
    all_goals obtain ⟨h1, h2⟩ := h
    all_goals subst h2
    all_goals subst h1
    · rename_i hb
      refine ⟨isValidScalar_of _ (by omega) (by omega), ?_⟩
      rw [utf8EncodeChar, if_pos hb]
      rfl
    · rename_i hc2
      simp only [isCont, Bool.and_eq_true, decide_eq_true_eq] at hc2
      obtain ⟨hb2a, hb2b⟩ := hc2
      refine ⟨isValidScalar_of _ (by omega) (by omega), ?_⟩
      rw [utf8EncodeChar, if_neg (by omega), if_pos (by omega)]
      simp only [List.cons_append, List.nil_append, List.cons.injEq]
      refine ⟨by omega, by omega, trivial⟩
    · rename_i hc3
      simp [isCont, Decidable.not_and_iff_or_not] at hc3
      obtain ⟨⟨⟨⟨hb2a, hb2b⟩, hb3a, hb3b⟩, he1⟩, he2⟩ := hc3
      refine ⟨isValidScalar_of _ (by omega) (by omega), ?_⟩
      rw [utf8EncodeChar, if_neg (by omega), if_neg (by omega), if_pos (by omega)]
      simp only [List.cons_append, List.nil_append, List.cons.injEq]
      refine ⟨by omega, by omega, by omega, trivial⟩
    · rename_i hc4
      simp only [isCont, Bool.and_eq_true, decide_eq_true_eq] at hc4
      obtain ⟨⟨⟨⟨⟨hb2a, hb2b⟩, hb3a, hb3b⟩, hb4a, hb4b⟩, he1⟩, he2⟩ := hc4
      refine ⟨isValidScalar_of _ (by omega) (by omega), ?_⟩
      rw [utf8EncodeChar, if_neg (by omega), if_neg (by omega), if_neg (by omega)]
      simp only [List.cons_append, List.nil_append, List.cons.injEq]
      refine ⟨by omega, by omega, by omega, by omega, trivial⟩

theorem utf8Decode_encode {s : List Nat} (h : ∀ c ∈ s, isValidScalar c) :
    utf8Decode (utf8Encode s) = some s := by
  induction s with
  | nil => simp [utf8Encode, utf8Decode]
  | cons c t ih =>
    have hc : isValidScalar c := h c (by simp)
    have hrec := ih (fun x hx => h x (List.mem_cons_of_mem c hx))
    have hne : utf8EncodeChar c ++ utf8Encode t ≠ [] := by
      simp [utf8EncodeChar_ne_nil c]
    show utf8Decode (utf8EncodeChar c ++ utf8Encode t) = some (c :: t)
    rw [utf8Decode_ne_nil hne, utf8DecodeOne_encodeChar hc (utf8Encode t)]
    simp [hrec]

theorem utf8Decode_sound_aux (n : Nat) :
    ∀ l s : List Nat, l.length ≤ n → utf8Decode l = some s →
      (∀ c ∈ s, isValidScalar c) ∧ utf8Encode s = l := by
  induction n with
  | zero =>
    intro l s hlen h
    match l with
    | [] =>
      simp [utf8Decode] at h
      subst h
      exact ⟨by simp, rfl⟩
    | b :: t => simp at hlen
  | succ k ih =>
    intro l s hlen h
    match l with
    | [] =>
      simp [utf8Decode] at h
      subst h
      exact ⟨by simp, rfl⟩
    | b :: t =>
      rw [utf8Decode_cons] at h
      cases hd : utf8DecodeOne (b :: t) with
      | none =>
        rw [hd] at h
        simp at h
      | some pr =>
        obtain ⟨c, rest⟩ := pr
        rw [hd] at h
        simp only [] at h
        cases hr : utf8Decode rest with
        | none =>
          rw [hr] at h
          simp at h
        | some cs =>
          rw [hr] at h
          simp at h
          subst h
          have hlt := utf8DecodeOne_length hd
          obtain ⟨hcv, hl⟩ := utf8DecodeOne_sound hd
          obtain ⟨hv, he⟩ := ih rest cs (by simp at hlen hlt ⊢; omega) hr
          refine ⟨?_, ?_⟩
          · intro x hx
            rcases List.mem_cons.mp hx with hx | hx
            · subst hx
              exact hcv
            · exact hv x hx
          · show utf8EncodeChar c ++ utf8Encode cs = b :: t
            rw [he]
            exact hl.symm

theorem utf8Decode_sound {l s : List Nat} (h : utf8Decode l = some s) :
    (∀ c ∈ s, isValidScalar c) ∧ utf8Encode s = l :=
  utf8Decode_sound_aux l.length l s le_rfl h


/-! ## Claims -/

/-- C1 counterexample: the signed key codec does not flip the sign bit: for
    `i8`, `-1 < 0` but `encode(-1) = [0xFF]` does not sort lexicographically
    before `encode(0) = [0x00]` (a flipped encoding of `-1` would be
    `[0x7F]`). -/
theorem c1_signed_order_counterexample :
    intAsBigEndianBytes 1 (-1) = [255] ∧
    intAsBigEndianBytes 1 0 = [0] ∧
    ((-1 : Int) < 0) ∧
    lexLt (intAsBigEndianBytes 1 (-1)) (intAsBigEndianBytes 1 0) = false ∧
    intAsBigEndianBytes 1 (-1) ≠ [127] := by
  refine ⟨by decide, by decide, by decide, by decide, by decide⟩

/-- C1 (amended): `as_big_endian_bytes` for the fixed-width integer keys is
    the raw big-endian encoding with no sign-bit flip.  Unsigned keys preserve
    order (`a < b` iff `encode a < encode b` lexicographically); signed keys
    preserve order only between values of the same sign, and every negative
    value's encoding sorts lexicographically after every non-negative
    value's. -/
theorem c1_integer_key_order :
    (∀ n a b : Nat, a < 256 ^ n → b < 256 ^ n →
      (lexLt (uintAsBigEndianBytes n a) (uintAsBigEndianBytes n b) = true ↔ a < b)) ∧
    (∀ (n : Nat) (x : Int),
      intAsBigEndianBytes n x = toBEBytes n (x % (2 : Int) ^ (8 * n)).toNat) ∧
    (∀ (n : Nat) (a b : Int), 1 ≤ n →
      -((2 : Int) ^ (8 * n - 1)) ≤ a → a < (2 : Int) ^ (8 * n - 1) →
      -((2 : Int) ^ (8 * n - 1)) ≤ b → b < (2 : Int) ^ (8 * n - 1) →
      ((a < 0 ↔ b < 0) →
        (lexLt (intAsBigEndianBytes n a) (intAsBigEndianBytes n b) = true ↔ a < b)) ∧
      (a < 0 → 0 ≤ b →
        lexLt (intAsBigEndianBytes n b) (intAsBigEndianBytes n a) = true)) := by
  refine ⟨fun n a b ha hb => lexLt_uint_iff ha hb, fun n x => rfl, ?_⟩
  intro n a b hn hla hha hlb hhb
  have Ca := int_emod_toNat_cases hn hla hha
  have Cb := int_emod_toNat_cases hn hlb hhb
  constructor
  · intro hsame
    rw [lexLt_int_iff]
    rcases lt_or_le a 0 with h0a | h0a
    · have hb0 : b < 0 := hsame.mp h0a
      obtain ⟨ea, ba⟩ := Ca.2 h0a
      obtain ⟨eb, bb⟩ := Cb.2 hb0
      omega
    · have hb0 : ¬b < 0 := fun hb1 => absurd (hsame.mpr hb1) (by omega)
      obtain ⟨ea, ba⟩ := Ca.1 h0a
      obtain ⟨eb, bb⟩ := Cb.1 (by omega)
      omega
  · intro h0a h0b
    rw [lexLt_int_iff]
    obtain ⟨ea, ba⟩ := Ca.2 h0a
    obtain ⟨eb, bb⟩ := Cb.1 h0b
    omega

/-- C1 witness: the amended order statement at concrete inputs — `u16` keys
    `300 < 400`, same-sign `i8` keys `-2 < -1`, and the `i8` pair
    `(-1, 0)` where the negative key's encoding sorts after. -/
theorem c1_integer_key_order_witness :
    (lexLt (uintAsBigEndianBytes 2 300) (uintAsBigEndianBytes 2 400) = true) ∧
    (lexLt (intAsBigEndianBytes 1 (-2)) (intAsBigEndianBytes 1 (-1)) = true) ∧
    (lexLt (intAsBigEndianBytes 1 0) (intAsBigEndianBytes 1 (-1)) = true) := by
  refine ⟨?_, ?_, ?_⟩
  · exact (c1_integer_key_order.1 2 300 400 (by norm_num) (by norm_num)).mpr (by norm_num)
  · exact ((c1_integer_key_order.2.2 1 (-2) (-1) (by norm_num) (by norm_num) (by norm_num)
      (by norm_num) (by norm_num)).1 (by norm_num)).mpr (by norm_num)
  · exact (c1_integer_key_order.2.2 1 (-1) 0 (by norm_num) (by norm_num) (by norm_num)
      (by norm_num) (by norm_num)).2 (by norm_num) (by norm_num)


/-- C2: `Range::deserialize` does not invert `Range::as_big_endian_bytes`:
    the source recovers the `end` bound from the serialized `start` bound
    (`end: self.start.deserialize()?`).  For the `u8` range
    `Included(1)..Excluded(2)`, serialization yields
    `Included([1])..Excluded([2])`, but deserializing that yields
    `Included(1)..Included(1)`, not the original range. -/
theorem c2_range_deserialize_end_from_start :
    rangeAsBigEndianBytes
        (fun v => (Except.ok (uintAsBigEndianBytes 1 v) : Except String (List Nat)))
        ⟨.included 1, .excluded 2⟩ = .ok ⟨.included [1], .excluded [2]⟩ ∧
    rangeDeserialize (uintFromBigEndianBytes 1) ⟨.included [1], .excluded [2]⟩ =
      .ok ⟨.included 1, .included 1⟩ ∧
    (⟨.included 1, .included 1⟩ : KeyRange Nat) ≠ ⟨.included 1, .excluded 2⟩ := by
  refine ⟨rfl, rfl, by decide⟩

/-- C3 counterexample: for the unit key, whose encoding is empty, encoding
    `Some(())` does not return an error result: the `assert!` in
    `Option::as_big_endian_bytes` panics. -/
theorem c3_option_encode_counterexample :
    optionAsBigEndianBytes unitAsBigEndianBytes (some ()) = .panicked ∧
    (optionAsBigEndianBytes unitAsBigEndianBytes (some ())).isError = false :=
  ⟨rfl, rfl⟩

/-- C3 (amended): for every key type `T` and value `x` whose encoding is the
    empty byte sequence, encoding `Some(x)` panics (`assert!`, documented
    under `# Panics`) instead of returning an error to the caller. -/
theorem c3_option_empty_encode_panics {α ε : Type} (enc : α → Except ε (List Nat))
    (x : α) (h : enc x = .ok []) :
    optionAsBigEndianBytes enc (some x) = .panicked ∧
    (optionAsBigEndianBytes enc (some x)).isError = false := by
  unfold optionAsBigEndianBytes
  simp only []
  rw [h]
  exact ⟨rfl, rfl⟩

/-- C3 witness: the amended statement at the unit key. -/
theorem c3_option_empty_encode_panics_witness :
    unitAsBigEndianBytes () = .ok [] ∧
    optionAsBigEndianBytes unitAsBigEndianBytes (some ()) = .panicked :=
  ⟨rfl, (c3_option_empty_encode_panics unitAsBigEndianBytes () rfl).1⟩

/-- C4: for every supported key type and every value on which encoding is
    defined, decoding the encoding returns the original value: the unsigned
    and signed fixed-width integers (within their value range), `String`
    (valid scalar values), `Vec<u8>`, `Cow<[u8]>`, the unit type, `Uuid`
    (16 bytes), and `Option<T>` for any inner codec that round-trips. -/
theorem c4_key_roundtrip :
    (∀ n v : Nat, v < 256 ^ n →
      uintFromBigEndianBytes n (uintAsBigEndianBytes n v) = .ok v) ∧
    (∀ (n : Nat) (x : Int), 1 ≤ n →
      -((2 : Int) ^ (8 * n - 1)) ≤ x → x < (2 : Int) ^ (8 * n - 1) →
      intFromBigEndianBytes n (intAsBigEndianBytes n x) = .ok x) ∧
    (∀ s : List Nat, (∀ c ∈ s, isValidScalar c) →
      stringFromBigEndianBytes (stringAsBigEndianBytes s) = .ok s) ∧
    (∀ v : List Nat, vecFromBigEndianBytes (vecAsBigEndianBytes v) = .ok v) ∧
    (∀ v : List Nat, cowFromBigEndianBytes (cowAsBigEndianBytes v) = .ok v) ∧
    (∀ (u : Unit) (bs : List Nat), unitAsBigEndianBytes u = .ok bs →
      unitFromBigEndianBytes bs = .ok u) ∧
    (∀ u : List Nat, u.length = 16 →
      uuidFromBigEndianBytes (uuidAsBigEndianBytes u) = .ok u) ∧
    (∀ (α : Type) (enc : α → Except String (List Nat))
        (dec : List Nat → Except String α),
      (∀ x bs, enc x = .ok bs → dec bs = .ok x) →
      ∀ (ox : Option α) (bs : List Nat),
        optionAsBigEndianBytes enc ox = .ok bs →
        optionFromBigEndianBytes dec bs = .ok ox) := by
  refine ⟨?_, ?_, ?_, fun v => rfl, fun v => rfl, ?_, ?_, ?_⟩
  · intro n v h
    unfold uintAsBigEndianBytes uintFromBigEndianBytes
    rw [if_pos (toBEBytes_length n v), fromBEBytes_toBEBytes h]
  · intro n x hn hlo hhi
    exact int_roundtrip hn hlo hhi
  · intro s h
    unfold stringAsBigEndianBytes stringFromBigEndianBytes
    rw [utf8Decode_encode h]
  · intro u bs h
    cases u
    rfl
  · intro u h
    unfold uuidAsBigEndianBytes uuidFromBigEndianBytes
    rw [if_pos h]
  · intro α enc dec hrt ox bs h
    cases ox with
    | none =>
      unfold optionAsBigEndianBytes at h
      simp only [Outcome.ok.injEq] at h
      subst h
      rfl
    | some x =>
      unfold optionAsBigEndianBytes at h
      simp only [] at h
      cases he : enc x with
      | error e =>
        rw [he] at h
        simp at h
      | ok bs0 =>
        rw [he] at h
        cases bs0 with
        | nil => simp at h
        | cons b t =>
          simp only [List.isEmpty_cons, if_false, Bool.false_eq_true,
            Outcome.ok.injEq] at h
          subst h
          unfold optionFromBigEndianBytes
          rw [if_neg (by simp), hrt x (b :: t) he]
          rfl

/-- C4 witness: the round-trip at concrete inputs — `u16` 300, `i8` −5,
    the string `"h" ++ U+03E8 ++ U+11170`, a 16-byte UUID, and
    `Some(vec![7])` through the `Option` codec over `Vec<u8>`. -/
theorem c4_key_roundtrip_witness :
    uintFromBigEndianBytes 2 (uintAsBigEndianBytes 2 300) = .ok 300 ∧
    intFromBigEndianBytes 1 (intAsBigEndianBytes 1 (-5)) = .ok (-5) ∧
    stringFromBigEndianBytes (stringAsBigEndianBytes [104, 1000, 70000]) =
      .ok [104, 1000, 70000] ∧
    uuidFromBigEndianBytes (uuidAsBigEndianBytes (List.replicate 16 0)) =
      .ok (List.replicate 16 0) ∧
    optionFromBigEndianBytes vecFromBigEndianBytes [7] = .ok (some [7]) := by
  refine ⟨?_, ?_, ?_, ?_, ?_⟩
  · exact c4_key_roundtrip.1 2 300 (by norm_num)
  · exact c4_key_roundtrip.2.1 1 (-5) (by norm_num) (by norm_num) (by norm_num)
  · exact c4_key_roundtrip.2.2.1 [104, 1000, 70000] (by decide)
  · exact c4_key_roundtrip.2.2.2.2.2.2.1 (List.replicate 16 0) (by decide)
  · exact c4_key_roundtrip.2.2.2.2.2.2.2 (List Nat)
      (fun v => Except.ok (vecAsBigEndianBytes v)) vecFromBigEndianBytes
      (fun x bs h => by cases h; rfl) (some [7]) [7] rfl

/-- C5: the `Option<T>` key codec — `None` encodes to the empty byte string;
    `Some(x)` encodes to `encode(x)` whenever that is non-empty; the empty
    byte string decodes to `None` and any non-empty byte string decodes
    through the inner decoder to `Some`. -/
theorem c5_option_codec {α ε : Type} (enc : α → Except ε (List Nat))
    (dec : List Nat → Except ε α) :
    optionAsBigEndianBytes enc none = .ok [] ∧
    (∀ (x : α) (bs : List Nat), enc x = .ok bs → bs ≠ [] →
      optionAsBigEndianBytes enc (some x) = .ok bs) ∧
    optionFromBigEndianBytes dec [] = .ok none ∧
    (∀ bs : List Nat, bs ≠ [] →
      optionFromBigEndianBytes dec bs = (dec bs).map some) := by
  refine ⟨rfl, ?_, rfl, ?_⟩
  · intro x bs h hne
    unfold optionAsBigEndianBytes
    simp only []
    rw [h]
    cases bs with
    | nil => exact absurd rfl hne
    | cons b t => rfl
  · intro bs hne
    unfold optionFromBigEndianBytes
    rw [if_neg (by simp [hne])]

/-- C5 witness: the option codec laws at the `Vec<u8>` key and the byte
    string `[9]`. -/
theorem c5_option_codec_witness :
    optionAsBigEndianBytes
        (fun v => (Except.ok (vecAsBigEndianBytes v) : Except String (List Nat)))
        (some [9]) = .ok [9] ∧
    optionFromBigEndianBytes vecFromBigEndianBytes [9] =
      (vecFromBigEndianBytes [9]).map some :=
  ⟨(c5_option_codec (fun v => Except.ok (vecAsBigEndianBytes v))
      vecFromBigEndianBytes).2.1 [9] [9] rfl (by decide),
    (c5_option_codec (fun v => (Except.ok (vecAsBigEndianBytes v) :
      Except String (List Nat))) vecFromBigEndianBytes).2.2.2 [9] (by decide)⟩


/-- C6: `apply_transaction` (modelled from the spec, since only the trait
    declaration is in the sources): if the transaction fails, the returned
    state is the input state — every document, the last transaction id and
    the `Executed` log are unchanged; if it succeeds, all operations are
    applied under one commit point, the assigned transaction id is the next
    after the last committed, and exactly one `Executed` record is
    appended. -/
theorem c6_apply_transaction_atomic (st : DbState) (tx : List Operation)
    (st' : DbState) (out : Except TxError (List OperationResult))
    (h : applyTransaction st tx = (st', out)) :
    (∀ e, out = .error e → st' = st) ∧
    (∀ rs, out = .ok rs →
      applyOperations st.docs tx = .ok (st'.docs, rs) ∧
      st'.lastTxId = some st.nextTxId ∧
      st'.executed = st.executed ++ [(st.nextTxId, rs)]) := by
  unfold applyTransaction at h
  cases hops : applyOperations st.docs tx with
  | error e =>
    rw [hops] at h
    simp only [Prod.mk.injEq] at h
    obtain ⟨h1, h2⟩ := h
    subst h1
    subst h2
    exact ⟨fun e' _ => rfl, fun rs hrs => by simp at hrs⟩
  | ok pr =>
    obtain ⟨docs1, results⟩ := pr
    rw [hops] at h
    simp only [Prod.mk.injEq] at h
    obtain ⟨h1, h2⟩ := h
    subst h2
    subst h1
    refine ⟨fun e he => by simp at he, fun rs hrs => ?_⟩
    simp only [Except.ok.injEq] at hrs
    subst hrs
    exact ⟨rfl, rfl, rfl⟩

/-- C6 witness: on a one-document state with last transaction id 3, an update
    with a stale revision fails and leaves the state unchanged, while an
    update with the current revision commits with transaction id 4 and
    appends one `Executed` record. -/
theorem c6_apply_transaction_atomic_witness :
    (applyTransaction ⟨[(1, ⟨1, [5]⟩)], some 3, []⟩ [.update 1 2 [6]]).1 =
      ⟨[(1, ⟨1, [5]⟩)], some 3, []⟩ ∧
    (applyTransaction ⟨[(1, ⟨1, [5]⟩)], some 3, []⟩ [.update 1 1 [6]]).1.lastTxId =
      some 4 ∧
    (applyTransaction ⟨[(1, ⟨1, [5]⟩)], some 3, []⟩ [.update 1 1 [6]]).1.executed =
      [] ++ [(4, [.documentUpdated 1 2])] := by
  refine ⟨?_, ?_, ?_⟩
  · exact (c6_apply_transaction_atomic ⟨[(1, ⟨1, [5]⟩)], some 3, []⟩
      [.update 1 2 [6]] _ _ rfl).1 (.documentConflict 1) rfl
  · exact ((c6_apply_transaction_atomic ⟨[(1, ⟨1, [5]⟩)], some 3, []⟩
      [.update 1 1 [6]] _ _ rfl).2 [.documentUpdated 1 2] rfl).2.1
  · exact ((c6_apply_transaction_atomic ⟨[(1, ⟨1, [5]⟩)], some 3, []⟩
      [.update 1 1 [6]] _ _ rfl).2 [.documentUpdated 1 2] rfl).2.2

/-- C7: the `String` key codec is byte pass-through on encode, and decoding a
    byte string `b` succeeds with the string `s` exactly when `s` consists of
    Unicode scalar values and its UTF-8 encoding is `b`; otherwise decoding
    returns an error, never a value. -/
theorem c7_string_codec_utf8 :
    (∀ b s : List Nat,
      stringFromBigEndianBytes b = .ok s ↔
        ((∀ c ∈ s, isValidScalar c) ∧ stringAsBigEndianBytes s = b)) ∧
    (∀ b : List Nat, (∃ e, stringFromBigEndianBytes b = .error e) ∨
      ∃ s, stringFromBigEndianBytes b = .ok s) := by
  constructor
  · intro b s
    constructor
    · intro h
      unfold stringFromBigEndianBytes at h
      cases hd : utf8Decode b with
      | none =>
        rw [hd] at h
        simp at h
      | some s0 =>
        rw [hd] at h
        simp only [Except.ok.injEq] at h
        subst h
        exact utf8Decode_sound hd
    · rintro ⟨hv, he⟩
      subst he
      unfold stringFromBigEndianBytes stringAsBigEndianBytes
      rw [utf8Decode_encode hv]
  · intro b
    unfold stringFromBigEndianBytes
    cases utf8Decode b with
    | none => exact Or.inl ⟨"FromUtf8Error", rfl⟩
    | some s => exact Or.inr ⟨s, rfl⟩

/-- C7 witness: decoding the UTF-8 bytes of `"h" ++ U+03E8` returns that
    string, and decoding the invalid byte `0xFF` returns an error. -/
theorem c7_string_codec_utf8_witness :
    stringFromBigEndianBytes [104, 207, 168] = .ok [104, 1000] ∧
    stringFromBigEndianBytes [255] = .error "FromUtf8Error" :=
  ⟨(c7_string_codec_utf8.1 [104, 207, 168] [104, 1000]).mpr ⟨by decide, by decide⟩,
    by
      have hd : utf8Decode [255] = none := by
        rw [utf8Decode_cons]
        simp [utf8DecodeOne]
      unfold stringFromBigEndianBytes
      rw [hd]⟩

/-- C8: `list_executed_transactions` (modelled from the spec, since only the
    trait declaration is in the sources) returns at most 1000 records when no
    `result_limit` is supplied, at most `min(result_limit, 100000)` when one
    is, and never more than the 100000 hard cap. -/
theorem c8_list_executed_transactions_caps
    (log : List (Nat × List OperationResult)) (sid : Option Nat) :
    (listExecutedTransactions log sid none).length ≤ 1000 ∧
    (∀ m : Nat, (listExecutedTransactions log sid (some m)).length ≤ min m 100000) ∧
    (∀ rl : Option Nat, (listExecutedTransactions log sid rl).length ≤ 100000) := by
  refine ⟨?_, fun m => ?_, fun rl => ?_⟩
  · unfold listExecutedTransactions
    simp [List.length_take]
  · unfold listExecutedTransactions
    simp [List.length_take]
  · unfold listExecutedTransactions
    simp [List.length_take]

/-- C9: for the single-operation default methods of `Connection`, under the
    precondition that a successful `apply_transaction` on a one-operation
    transaction returns exactly one `OperationResult` of the matching kind,
    the `results[0]` indexing is in bounds and the `unreachable!` arms never
    run: insert returns the `DocumentUpdated` header, update returns the new
    header that overwrites the caller's, and delete returns unit. -/
theorem c9_single_op_defaults
    (applyTx : List Operation → Except TxError (List OperationResult))
    (hP : ∀ op rs, applyTx [op] = .ok rs → ∃ r, rs = [r] ∧ resultMatches op r)
    (id : Option Nat) (contents : List Nat) (header : Nat × Nat) :
    (connectionInsert applyTx id contents ≠ .panicked ∧
      ∀ i s, applyTx [.insert id contents] = .ok [.documentUpdated i s] →
        connectionInsert applyTx id contents = .ok (i, s)) ∧
    (connectionUpdate applyTx header contents ≠ .panicked ∧
      ∀ i s, applyTx [.update header.1 header.2 contents] = .ok [.documentUpdated i s] →
        connectionUpdate applyTx header contents = .ok (i, s)) ∧
    (connectionDelete applyTx header ≠ .panicked ∧
      ∀ i, applyTx [.delete header.1 header.2] = .ok [.documentDeleted i] →
        connectionDelete applyTx header = .ok ()) := by
  refine ⟨⟨?_, ?_⟩, ⟨?_, ?_⟩, ⟨?_, ?_⟩⟩
  · unfold connectionInsert
    cases hA : applyTx [.insert id contents] with
    | error e => simp
    | ok rs =>
      obtain ⟨r, hrs, hm⟩ := hP _ _ hA
      subst hrs
      cases r with
      | documentUpdated i s => simp
      | documentDeleted i => simp [resultMatches] at hm
  · intro i s hA
    unfold connectionInsert
    rw [hA]
  · unfold connectionUpdate
    cases hA : applyTx [.update header.1 header.2 contents] with
    | error e => simp
    | ok rs =>
      obtain ⟨r, hrs, hm⟩ := hP _ _ hA
      subst hrs
      cases r with
      | documentUpdated i s => simp
      | documentDeleted i => simp [resultMatches] at hm
  · intro i s hA
    unfold connectionUpdate
    rw [hA]
    rfl
  · unfold connectionDelete
    cases hA : applyTx [.delete header.1 header.2] with
    | error e => simp
    | ok rs =>
      obtain ⟨r, hrs, hm⟩ := hP _ _ hA
      subst hrs
      cases r with
      | documentUpdated i s => simp [resultMatches] at hm
      | documentDeleted i => simp
  · intro i hA
    unfold connectionDelete
    rw [hA]

/-- C9 witness: a backend that answers every one-operation transaction with
    the single matching result; insert, update and delete all return `ok`. -/
theorem c9_single_op_defaults_witness :
    connectionInsert
        (fun ops => (Except.ok (ops.map (fun op =>
          match op with
          | .insert _ _ => OperationResult.documentUpdated 1 1
          | .update i s _ => OperationResult.documentUpdated i (s + 1)
          | .delete i _ => OperationResult.documentDeleted i)) :
            Except TxError (List OperationResult)))
        (some 1) [2] = .ok (1, 1) ∧
    connectionUpdate
        (fun ops => (Except.ok (ops.map (fun op =>
          match op with
          | .insert _ _ => OperationResult.documentUpdated 1 1
          | .update i s _ => OperationResult.documentUpdated i (s + 1)
          | .delete i _ => OperationResult.documentDeleted i)) :
            Except TxError (List OperationResult)))
        (7, 3) [2] = .ok (7, 4) ∧
    connectionDelete
        (fun ops => (Except.ok (ops.map (fun op =>
          match op with
          | .insert _ _ => OperationResult.documentUpdated 1 1
          | .update i s _ => OperationResult.documentUpdated i (s + 1)
          | .delete i _ => OperationResult.documentDeleted i)) :
            Except TxError (List OperationResult)))
        (7, 3) = .ok () := by
  have hP : ∀ op rs,
      (fun ops => (Except.ok (ops.map (fun op =>
        match op with
        | .insert _ _ => OperationResult.documentUpdated 1 1
        | .update i s _ => OperationResult.documentUpdated i (s + 1)
        | .delete i _ => OperationResult.documentDeleted i)) :
          Except TxError (List OperationResult))) [op] =
        Except.ok rs →
      ∃ r, rs = [r] ∧ resultMatches op r := by
    intro op rs h
    simp only [List.map, Except.ok.injEq] at h
    subst h
    cases op with
    | insert i c => exact ⟨_, rfl, trivial⟩
    | update i s c => exact ⟨_, rfl, trivial⟩
    | delete i s => exact ⟨_, rfl, trivial⟩
  refine ⟨?_, ?_, ?_⟩
  · exact ((c9_single_op_defaults _ hP (some 1) [2] (7, 3)).1).2 1 1 rfl
  · exact ((c9_single_op_defaults _ hP (some 1) [2] (7, 3)).2.1).2 7 4 rfl
  · exact ((c9_single_op_defaults _ hP (some 1) [2] (7, 3)).2.2).2 7 rfl

/-- C10: `Connection::view` starts from key `None`, access policy
    `UpdateBefore`, sort `Ascending` and limit `None`, and every fluent
    setter changes only its own field. -/
theorem c10_view_defaults_and_setters (κ : Type) (v : ViewParams κ) (k : κ)
    (ks : List κ) (r : KeyRange κ) (p : AccessPolicy) (m : Nat) :
    ((ViewParams.new : ViewParams κ).key = none ∧
      (ViewParams.new : ViewParams κ).accessPolicy = .updateBefore ∧
      (ViewParams.new : ViewParams κ).sort = .ascending ∧
      (ViewParams.new : ViewParams κ).limit = none) ∧
    ((v.with_key k).key = some (.matches k) ∧
      (v.with_key k).accessPolicy = v.accessPolicy ∧
      (v.with_key k).sort = v.sort ∧ (v.with_key k).limit = v.limit) ∧
    ((v.with_keys ks).key = some (.multiple ks) ∧
      (v.with_keys ks).accessPolicy = v.accessPolicy ∧
      (v.with_keys ks).sort = v.sort ∧ (v.with_keys ks).limit = v.limit) ∧
    ((v.with_key_range r).key = some (.range r) ∧
      (v.with_key_range r).accessPolicy = v.accessPolicy ∧
      (v.with_key_range r).sort = v.sort ∧ (v.with_key_range r).limit = v.limit) ∧
    ((v.with_access_policy p).accessPolicy = p ∧
      (v.with_access_policy p).key = v.key ∧
      (v.with_access_policy p).sort = v.sort ∧
      (v.with_access_policy p).limit = v.limit) ∧
    (v.ascending.sort = .ascending ∧ v.ascending.key = v.key ∧
      v.ascending.accessPolicy = v.accessPolicy ∧ v.ascending.limit = v.limit) ∧
    (v.descending.sort = .descending ∧ v.descending.key = v.key ∧
      v.descending.accessPolicy = v.accessPolicy ∧ v.descending.limit = v.limit) ∧
    ((v.with_limit m).limit = some m ∧ (v.with_limit m).key = v.key ∧
      (v.with_limit m).accessPolicy = v.accessPolicy ∧
      (v.with_limit m).sort = v.sort) :=
  ⟨⟨rfl, rfl, rfl, rfl⟩, ⟨rfl, rfl, rfl, rfl⟩, ⟨rfl, rfl, rfl, rfl⟩,
    ⟨rfl, rfl, rfl, rfl⟩, ⟨rfl, rfl, rfl, rfl⟩, ⟨rfl, rfl, rfl, rfl⟩,
    ⟨rfl, rfl, rfl, rfl⟩, ⟨rfl, rfl, rfl, rfl⟩⟩

end PliantDb
